import Mathlib

/-!
Shallow embedding of the FinSurf client-side PDF composition pipeline
(the downloadPDF function of the PDF generator module): chunk planning,
parallel rasterization, page assembly, and the CSS color normalizer.
Layout quantities are integers (the source computes with JS numbers; every
quantity the claims exercise is integral, and the packing and pagination
arithmetic is identical over any ordered field);
DOM report nodes are records of exactly the attributes the pipeline reads.
-/

namespace FinSurf

/-- Density policy: the pdfMode parameter of downloadPDF (standard or hd). -/
inductive PDFMode where
  | standard
  | hd
deriving DecidableEq

/-- A report node as the pipeline reads it: the data-pdf-chunk attribute
(role), the data-pdf-title attribute, whether data-pdf-break equals the
string before (breakBefore), whether a .markdown-body descendant exists
(populated), and the measured live width from getBoundingClientRect. -/
structure El where
  role : Option String
  title : Option String
  breakBefore : Bool
  populated : Bool
  width : ℤ
deriving DecidableEq

/-- Source: el.getAttribute of data-pdf-chunk compared with the string card. -/
def elIsCard (e : El) : Bool :=
  decide (e.role = some "card")

/-- Source: el.getBoundingClientRect().width || 350 — JS treats a zero
width as falsy and substitutes the 350 default. -/
def effWidth (w : ℤ) : ℤ :=
  if w = 0 then 350 else w

/-- Source: const gap = pdfMode === hd ? 0 : 20 (inter-card gap). -/
def cardGap : PDFMode → ℤ
  | .hd => 0
  | .standard => 20

/-- Source: CHUNK_GAP = pdfMode === hd ? 10 : 30 (inter-chunk gap). -/
def chunkGap : PDFMode → ℤ
  | .hd => 10
  | .standard => 30

/-- Source: SINGLE_PAGE_THRESHOLD = pdfMode === hd ? 8000 : 4000. -/
def singlePageThreshold : PDFMode → ℤ
  | .hd => 8000
  | .standard => 4000

/-- Source: STANDARD_A4_HEIGHT = 1980. -/
def STANDARD_A4_HEIGHT : ℤ := 1980

/-- Source: PAGE_WIDTH = 1400; every emitted page shares this fixed width. -/
def PAGE_WIDTH : ℤ := 1400

/-- A chunk of the plan: a singleton element or a row group of card elements
(the chunks array holds HTMLElement or HTMLElement[] values). -/
inductive Chunk where
  | single (e : El)
  | group (es : List El)
deriving DecidableEq

/-- Loop state of the chunk planning loop: the chunks array built so far,
the currentCardRow, and currentRowWidth. -/
structure PlanState where
  chunks : List Chunk
  row : List El
  rowWidth : ℤ

/-- Source: if (currentCardRow.length > 0) chunks.push([...currentCardRow]). -/
def flushRow (row : List El) : List Chunk :=
  if row = [] then [] else [Chunk.group row]

/-- One iteration of the chunk planning loop over rawChunks (the body of
the for loop in downloadPDF, current revision). -/
def planStep (mode : PDFMode) (s : PlanState) (el : El) : PlanState :=
  let isCard := elIsCard el
  let isPopulated := if isCard then el.populated else true
  if isPopulated = false then s
  else if isCard then
    let width := effWidth el.width
    let gap := cardGap mode
    if s.rowWidth + width + gap ≤ 1400 then
      { s with row := s.row ++ [el], rowWidth := s.rowWidth + width + gap }
    else
      { chunks := s.chunks ++ flushRow s.row, row := [el], rowWidth := width }
  else
    { chunks := (s.chunks ++ flushRow s.row) ++ [Chunk.single el]
      row := []
      rowWidth := 0 }

/-- The Chunk Planner: the full planning loop followed by the final flush
(if (currentCardRow.length > 0) chunks.push(currentCardRow)). -/
def planChunks (mode : PDFMode) (els : List El) : List Chunk :=
  let s := els.foldl (planStep mode) ⟨[], [], 0⟩
  s.chunks ++ flushRow s.row

/-- Sum of the packed (default-substituted) card widths of a row group plus
the inter-card gaps between consecutive members. -/
def rowMeasure (mode : PDFMode) (g : List El) : ℤ :=
  (g.map (fun e => effWidth e.width)).sum + ((g.length : ℤ) - 1) * cardGap mode

/-- All elements referenced by a chunk. -/
def elsOfChunk : Chunk → List El
  | .single e => [e]
  | .group es => es

/-- The card-role elements referenced by a chunk. -/
def cardsOfChunk (c : Chunk) : List El :=
  (elsOfChunk c).filter (fun e => elIsCard e)

/-- All card-role elements appearing across a chunk sequence, in order. -/
def planCards (cs : List Chunk) : List El :=
  (cs.map cardsOfChunk).flatten

/-- Identity of an element apart from its measured width (used to compare
planning decisions across different measurements of the same node). -/
def elKey (e : El) : El := { e with width := 0 }

/-- Chunk image under elKey. -/
def chunkKey : Chunk → Chunk
  | .single e => .single (elKey e)
  | .group es => .group (es.map elKey)

/-- Result of rasterizing one chunk: the layout-unit height of the produced
canvas (canvas.height / scale in the source) together with the two
attributes of the first element that the assembly loop re-reads. -/
structure RasterItem where
  height : ℤ
  isCard : Bool
  breakBefore : Bool
deriving DecidableEq

/-- First element of a chunk (group[0] in the source). -/
def chunkFirst : Chunk → Option El
  | .single e => some e
  | .group es => es.head?

/-- Rasterizer Adapter output for one chunk, given an abstract capture
returning the layout-unit canvas height of that chunk. -/
def toItem (capture : Chunk → ℤ) (c : Chunk) : RasterItem :=
  { height := capture c
    isCard := ((chunkFirst c).map elIsCard).getD false
    breakBefore := ((chunkFirst c).map El.breakBefore).getD false }

/-- Source: effectiveGap = (isCard && prevIsCard) ? cardGap : CHUNK_GAP. -/
def effGap (mode : PDFMode) (prevCard curCard : Bool) : ℤ :=
  if curCard && prevCard then cardGap mode else chunkGap mode

/-- Tail of the totalHeight accumulation: every remaining chunk contributes
its effective gap (relative to the previous chunk) plus its height. -/
def totalHeightFrom (mode : PDFMode) (prevCard : Bool) : List RasterItem → ℤ
  | [] => 0
  | r :: rest => effGap mode prevCard r.isCard + r.height + totalHeightFrom mode r.isCard rest

/-- Source: totalHeight += chunkH + (index === 0 ? 0 : effectiveGap)
over all rasterization results. -/
def totalHeight (mode : PDFMode) : List RasterItem → ℤ
  | [] => 0
  | r :: rest => r.height + totalHeightFrom mode r.isCard rest

/-- One image placed on a page: vertical offset (the currentY passed to
pdf.addImage), the rasterized chunk, and its position in the chunk plan. -/
structure Placement where
  y : ℤ
  item : RasterItem
  idx : Nat
deriving DecidableEq

/-- A page of the emitted document: its declared height (the format passed
to jsPDF or addPage; the width is always PAGE_WIDTH) and its placements. -/
structure Page where
  height : ℤ
  placements : List Placement
deriving DecidableEq

/-- The assembly loop of downloadPDF after pdf initialization: done pages,
the current page, currentY, prevWasCard, and the index of the next chunk. -/
def assembleAux (mode : PDFMode) (useSingle : Bool) :
    List Page → Page → ℤ → Bool → Nat → List RasterItem → List Page
  | done, cur, _, _, _, [] => done ++ [cur]
  | done, cur, y, prev, i, r :: rest =>
    let g := effGap mode prev r.isCard
    if useSingle then
      assembleAux mode useSingle done
        { cur with placements := cur.placements ++ [⟨y + g, r, i⟩] }
        (y + g + r.height) r.isCard (i + 1) rest
    else if r.breakBefore || decide (y + r.height + g > cur.height) then
      assembleAux mode useSingle (done ++ [cur])
        ⟨max STANDARD_A4_HEIGHT r.height, [⟨0, r, i⟩]⟩
        r.height r.isCard (i + 1) rest
    else
      assembleAux mode useSingle done
        { cur with placements := cur.placements ++ [⟨y + g, r, i⟩] }
        (y + g + r.height) r.isCard (i + 1) rest

/-- The Page Assembler: computes totalHeight, decides single page versus
pagination, initializes the document with the first chunk (initialHeight is
totalHeight when it fits, else max of STANDARD_A4_HEIGHT and the first chunk
height), then runs the assembly loop over the remaining chunks. -/
def assemble (mode : PDFMode) : List RasterItem → List Page
  | [] => []
  | r :: rest =>
    let total := totalHeight mode (r :: rest)
    let useSingle : Bool := decide (total ≤ singlePageThreshold mode)
    let initH := if useSingle then total else max STANDARD_A4_HEIGHT r.height
    assembleAux mode useSingle [] ⟨initH, [⟨0, r, 0⟩]⟩ r.height r.isCard 1 rest

/-- The run of placements produced by the single-page branch starting from
cursor y, previous-was-card flag prev, and chunk index i. -/
def placeRun (mode : PDFMode) (y : ℤ) (prev : Bool) (i : Nat) :
    List RasterItem → List Placement
  | [] => []
  | r :: rest =>
    ⟨y + effGap mode prev r.isCard, r, i⟩ ::
      placeRun mode (y + effGap mode prev r.isCard + r.height) r.isCard (i + 1) rest

/-- Offsets accumulate after a given placement: each next placement sits at
the previous offset plus the previous height plus the effective gap. -/
def accumFromB (mode : PDFMode) : Placement → List Placement → Bool
  | _, [] => true
  | p, q :: rest =>
    decide (q.y = p.y + p.item.height + effGap mode p.item.isCard q.item.isCard) &&
      accumFromB mode q rest

/-- A placement list starts at offset zero and accumulates. -/
def accumB (mode : PDFMode) : List Placement → Bool
  | [] => true
  | p :: rest => decide (p.y = 0) && accumFromB mode p rest

/-- The occupied vertical extent of a page: offset plus height of its last
placement (placements accumulate from offset zero, so this equals the sum of
placed heights plus the gaps advanced between them on that page). -/
def pageOccupied (pg : Page) : ℤ :=
  match pg.placements.getLast? with
  | none => 0
  | some p => p.y + p.item.height

/-- Chunk-plan indices of all images of the document, page by page. -/
def docIdx (pages : List Page) : List Nat :=
  (pages.map (fun pg => pg.placements.map Placement.idx)).flatten

/-- Settling model of Promise.all: each rasterization task writes its result
into its own slot of the results array, in an arbitrary completion order. -/
def settleAll (tasks : List RasterItem) (order : List Nat) : List (Option RasterItem) :=
  order.foldl (fun acc j => acc.set j tasks[j]?) (List.replicate tasks.length none)

/-- Promise.all resolves only when every slot has settled. -/
def sequenceOpt : List (Option RasterItem) → Option (List RasterItem)
  | [] => some []
  | none :: _ => none
  | some a :: rest =>
    match sequenceOpt rest with
    | none => none
    | some l => some (a :: l)

/-- Parallel rasterization of the chunk plan under a completion order:
the aggregated results array handed to the Page Assembler. -/
def rasterizeAll (chunks : List Chunk) (capture : Chunk → ℤ) (order : List Nat) :
    Option (List RasterItem) :=
  sequenceOpt (settleAll (chunks.map (toItem capture)) order)

/-- Promise.all over fallible captures: a single rejection rejects the
aggregate (the current downloadPDF revision wraps captures in no retry). -/
def sequenceExcept : List (Except Unit RasterItem) → Except Unit (List RasterItem)
  | [] => .ok []
  | .error e :: _ => .error e
  | .ok r :: rest =>
    match sequenceExcept rest with
    | .error e => .error e
    | .ok rs => .ok (r :: rs)

/-- End-to-end export model of the current downloadPDF revision, abstracted
over per-chunk capture outcomes: a rejected capture propagates out of
Promise.all into the top-level catch (alert, nothing saved, none); otherwise
the document is assembled from all results, and pdf stays null (alert, none)
when there is nothing to place. -/
def downloadPDF (mode : PDFMode) (captures : List (Except Unit RasterItem)) :
    Option (List Page) :=
  match sequenceExcept captures with
  | .error _ => none
  | .ok [] => none
  | .ok rs => some (assemble mode rs)

/-- The retry loop of the legacy downloadPDF revision: up to retries
attempts; a failed attempt decrements the counter and rethrows when it
reaches zero, so exhaustion aborts the export instead of skipping the
chunk. ok i tells whether attempt number i succeeds. -/
def captureWithRetry (ok : Nat → Bool) (i retries : Nat) : Except Unit Nat :=
  match retries with
  | 0 => .error ()
  | r + 1 =>
    if ok i then .ok i
    else if r = 0 then .error ()
    else captureWithRetry ok (i + 1) r

/-- Whitespace class of the regex escape backslash-s (the forms relevant to
CSS text). -/
def isWs (c : Char) : Bool :=
  c == ' ' || c == '\t' || c == '\n' || c == '\r' || c == '\x0b' || c == '\x0c'

/-- The literal oklch. -/
def litOklch : List Char := ['o', 'k', 'l', 'c', 'h']

/-- The literal oklab. -/
def litOklab : List Char := ['o', 'k', 'l', 'a', 'b']

/-- The literal color-mix. -/
def litColorMix : List Char := ['c', 'o', 'l', 'o', 'r', '-', 'm', 'i', 'x']

/-- Leading alternation of modernColorRegex: one of the three unsupported
color function names. -/
def dropLit (s : List Char) : Option (List Char × List Char) :=
  if litOklch.isPrefixOf s then some (litOklch, s.drop litOklch.length)
  else if litOklab.isPrefixOf s then some (litOklab, s.drop litOklab.length)
  else if litColorMix.isPrefixOf s then some (litColorMix, s.drop litColorMix.length)
  else none

/-- Body scanner of modernColorRegex after the opening parenthesis: consumes
up to the matching closing parenthesis, allowing at most two further levels
of nested parentheses (the regex tolerates functions within functions to
depth two); deeper nesting or unbalanced input yields no match. -/
def scanBody : Nat → List Char → Option (List Char × List Char)
  | _, [] => none
  | depth, c :: rest =>
    if c = ')' then
      match depth with
      | 0 => some ([c], rest)
      | d + 1 =>
        match scanBody d rest with
        | some (x, r) => some (c :: x, r)
        | none => none
    else if c = '(' then
      if depth ≥ 2 then none
      else
        match scanBody (depth + 1) rest with
        | some (x, r) => some (c :: x, r)
        | none => none
    else
      match scanBody depth rest with
      | some (x, r) => some (c :: x, r)
      | none => none

/-- A match of modernColorRegex at the head of the input: a color function
name, optional whitespace, then a parenthesized body. Returns the matched
text and the rest of the input. -/
def matchColorFn (s : List Char) : Option (List Char × List Char) :=
  match dropLit s with
  | none => none
  | some (lit, r1) =>
    let ws := r1.takeWhile isWs
    match r1.dropWhile isWs with
    | '(' :: r3 =>
      match scanBody 0 r3 with
      | some (body, rest) => some (lit ++ ws ++ '(' :: body, rest)
      | none => none
    | _ => none

/-- Global regex replacement scan (String.replace with the g flag): at each
position, replace a match of modernColorRegex through conv and continue
after it, otherwise copy one character. Fueled by the input length; each
step consumes at least one character, so the fuel never runs out when the
scan starts with fuel equal to the length. -/
def replaceScanF (conv : List Char → List Char) : Nat → List Char → List Char
  | 0, s => s
  | _ + 1, [] => []
  | fuel + 1, c :: rest =>
    match matchColorFn (c :: rest) with
    | some (m, r) => conv m ++ replaceScanF conv fuel r
    | none => c :: replaceScanF conv fuel rest

/-- str.replace(modernColorRegex, m => conv m). -/
def replaceScan (conv : List Char → List Char) (s : List Char) : List Char :=
  replaceScanF conv s.length s

/-- Substring test (JS String.prototype.includes). -/
def containsSub (pat : List Char) : List Char → Bool
  | [] => pat.isEmpty
  | c :: rest => pat.isPrefixOf (c :: rest) || containsSub pat rest

/-- The Color Normalizer on one style-bearing string, as applied to style
tag bodies, rule texts and inline styles: the replacement runs only when the
string includes one of the three unsupported color function names. conv is
the convertColor resolution (abstract here). -/
def normalizeStyle (conv : List Char → List Char) (s : List Char) : List Char :=
  if containsSub litOklch s || containsSub litOklab s || containsSub litColorMix s then
    replaceScan conv s
  else s

/-- A populated 350-wide card (title a). -/
def cA : El := ⟨some "card", some "a", false, true, 350⟩

/-- A populated 350-wide card (title b). -/
def cB : El := ⟨some "card", some "b", false, true, 350⟩

/-- A populated 350-wide card (title c). -/
def cC : El := ⟨some "card", some "c", false, true, 350⟩

/-- A populated 350-wide card (title d). -/
def cD : El := ⟨some "card", some "d", false, true, 350⟩

/-- A populated card measuring 1500 layout units, wider than the page budget. -/
def eWide : El := ⟨some "card", none, false, true, 1500⟩

/-- An unpopulated (still loading) card. -/
def cU : El := ⟨some "card", some "u", false, false, 350⟩

/-- A non-card header element. -/
def hdr : El := ⟨some "pdf-header", none, false, true, 0⟩

/-- A populated card whose live measurement came back as zero width. -/
def cZ : El := ⟨some "card", some "z", false, true, 0⟩


/-! ## Basic facts about gaps and row measures -/

theorem cardGap_nonneg (mode : PDFMode) : 0 ≤ cardGap mode := by
  cases mode <;> decide

theorem chunkGap_nonneg (mode : PDFMode) : 0 ≤ chunkGap mode := by
  cases mode <;> decide

theorem effGap_nonneg (mode : PDFMode) (a b : Bool) : 0 ≤ effGap mode a b := by
  unfold effGap
  split
  · exact cardGap_nonneg mode
  · exact chunkGap_nonneg mode

theorem rowMeasure_nil (mode : PDFMode) : rowMeasure mode [] = -cardGap mode := by
  simp [rowMeasure]

theorem rowMeasure_single (mode : PDFMode) (e : El) :
    rowMeasure mode [e] = effWidth e.width := by
  simp [rowMeasure]

theorem rowMeasure_append (mode : PDFMode) (row : List El) (e : El) :
    rowMeasure mode (row ++ [e]) =
      rowMeasure mode row + effWidth e.width + cardGap mode := by
  simp only [rowMeasure, List.map_append, List.sum_append, List.length_append,
    List.map_cons, List.map_nil, List.sum_cons, List.sum_nil, List.length_cons,
    List.length_nil]
  push_cast
  ring

/-! ## Claim C1: the row width budget of the Chunk Planner -/

theorem flushRow_good (mode : PDFMode) (row : List El) (w : ℤ)
    (h1 : rowMeasure mode row ≤ w)
    (h2 : w ≤ 1400 ∨ ∃ e, row = [e] ∧ w = effWidth e.width) :
    ∀ c ∈ flushRow row, ∀ g, c = Chunk.group g →
      rowMeasure mode g ≤ 1400 ∨ ∃ e, g = [e] ∧ 1400 < effWidth e.width := by
  unfold flushRow
  split
  · simp
  · intro c hc g hg
    rw [List.mem_singleton] at hc
    subst hc
    injection hg with hg
    subst hg
    rcases h2 with h2 | ⟨e, hrow, hw⟩
    · exact Or.inl (h1.trans h2)
    · subst hrow
      rcases le_or_lt (effWidth e.width) 1400 with he | he
      · exact Or.inl (by rw [rowMeasure_single]; exact he)
      · exact Or.inr ⟨e, rfl, he⟩

theorem planStep_inv (mode : PDFMode) (s : PlanState) (e : El)
    (h1 : rowMeasure mode s.row ≤ s.rowWidth)
    (h2 : s.rowWidth ≤ 1400 ∨ ∃ e0, s.row = [e0] ∧ s.rowWidth = effWidth e0.width)
    (h3 : ∀ c ∈ s.chunks, ∀ g, c = Chunk.group g →
      rowMeasure mode g ≤ 1400 ∨ ∃ e0, g = [e0] ∧ 1400 < effWidth e0.width) :
    rowMeasure mode (planStep mode s e).row ≤ (planStep mode s e).rowWidth ∧
    ((planStep mode s e).rowWidth ≤ 1400 ∨
      ∃ e0, (planStep mode s e).row = [e0] ∧
        (planStep mode s e).rowWidth = effWidth e0.width) ∧
    (∀ c ∈ (planStep mode s e).chunks, ∀ g, c = Chunk.group g →
      rowMeasure mode g ≤ 1400 ∨ ∃ e0, g = [e0] ∧ 1400 < effWidth e0.width) := by
  by_cases hcard : elIsCard e = true
  · by_cases hpop : e.populated = true
    · by_cases hfit : s.rowWidth + effWidth e.width + cardGap mode ≤ 1400
      · have heq : planStep mode s e =
            ⟨s.chunks, s.row ++ [e], s.rowWidth + effWidth e.width + cardGap mode⟩ := by
          simp [planStep, hcard, hpop, hfit]
        rw [heq]
        refine ⟨?_, Or.inl hfit, h3⟩
        rw [rowMeasure_append]
        have := cardGap_nonneg mode
        dsimp only
        linarith
      · have heq : planStep mode s e =
            ⟨s.chunks ++ flushRow s.row, [e], effWidth e.width⟩ := by
          simp [planStep, hcard, hpop, hfit]
        rw [heq]
        refine ⟨le_of_eq (rowMeasure_single mode e), Or.inr ⟨e, rfl, rfl⟩, ?_⟩
        intro c hc g hg
        rcases List.mem_append.1 hc with hc | hc
        · exact h3 c hc g hg
        · exact flushRow_good mode s.row s.rowWidth h1 h2 c hc g hg
    · have heq : planStep mode s e = s := by
        simp [planStep, hcard, Bool.eq_false_iff.2 hpop]
      rw [heq]
      exact ⟨h1, h2, h3⟩
  · have heq : planStep mode s e =
        ⟨(s.chunks ++ flushRow s.row) ++ [Chunk.single e], [], 0⟩ := by
      simp [planStep, Bool.eq_false_iff.2 hcard]
    rw [heq]
    refine ⟨?_, ?_, ?_⟩
    · show rowMeasure mode [] ≤ 0
      rw [rowMeasure_nil]
      have := cardGap_nonneg mode
      linarith
    · exact Or.inl (show (0:ℤ) ≤ 1400 by decide)
    · intro c hc g hg
      rcases List.mem_append.1 hc with hc | hc
      · rcases List.mem_append.1 hc with hc2 | hc2
        · exact h3 c hc2 g hg
        · exact flushRow_good mode s.row s.rowWidth h1 h2 c hc2 g hg
      · rw [List.mem_singleton] at hc
        subst hc
        exact absurd hg (by simp)

theorem planFold_inv (mode : PDFMode) (els : List El) :
    ∀ s : PlanState,
      rowMeasure mode s.row ≤ s.rowWidth →
      (s.rowWidth ≤ 1400 ∨ ∃ e0, s.row = [e0] ∧ s.rowWidth = effWidth e0.width) →
      (∀ c ∈ s.chunks, ∀ g, c = Chunk.group g →
        rowMeasure mode g ≤ 1400 ∨ ∃ e0, g = [e0] ∧ 1400 < effWidth e0.width) →
      rowMeasure mode (els.foldl (planStep mode) s).row ≤
          (els.foldl (planStep mode) s).rowWidth ∧
        ((els.foldl (planStep mode) s).rowWidth ≤ 1400 ∨
          ∃ e0, (els.foldl (planStep mode) s).row = [e0] ∧
            (els.foldl (planStep mode) s).rowWidth = effWidth e0.width) ∧
        (∀ c ∈ (els.foldl (planStep mode) s).chunks, ∀ g, c = Chunk.group g →
          rowMeasure mode g ≤ 1400 ∨ ∃ e0, g = [e0] ∧ 1400 < effWidth e0.width) := by
  induction els with
  | nil => intro s h1 h2 h3; exact ⟨h1, h2, h3⟩
  | cons e rest ih =>
    intro s h1 h2 h3
    rw [List.foldl_cons]
    obtain ⟨g1, g2, g3⟩ := planStep_inv mode s e h1 h2 h3
    exact ih (planStep mode s e) g1 g2 g3

/-- Claim C1 (amended): every group chunk produced by the Chunk Planner has
a sum of packed card widths plus inter-card gaps of at most 1400 layout
units, except that a group consisting of a single card may exceed the
budget when the packed width of that lone card alone exceeds 1400. -/
theorem chunkPlanner_group_budget (mode : PDFMode) (els : List El) :
    ∀ c ∈ planChunks mode els, ∀ g, c = Chunk.group g →
      rowMeasure mode g ≤ 1400 ∨ ∃ e, g = [e] ∧ 1400 < effWidth e.width := by
  intro c hc g hg
  have h := planFold_inv mode els ⟨[], [], 0⟩
    (by show rowMeasure mode [] ≤ 0
        rw [rowMeasure_nil]
        have := cardGap_nonneg mode
        linarith)
    (Or.inl (by decide)) (by simp)
  unfold planChunks at hc
  rcases List.mem_append.1 hc with hin | hin
  · exact h.2.2 c hin g hg
  · exact flushRow_good mode _ _ h.1 h.2.1 c hin g hg

/-- Claim C1 fails as stated: a single populated card measuring 1500 layout
units becomes a group chunk of its own whose summed width, 1500, exceeds the
1400 budget. -/
theorem chunkPlanner_budget_cex :
    planChunks .standard [eWide] = [Chunk.group [eWide]] ∧
    1400 < rowMeasure .standard [eWide] := by decide

theorem chunkPlanner_group_budget_witness :
    Chunk.group [cA] ∈ planChunks .standard [cA] ∧
    (rowMeasure .standard [cA] ≤ 1400 ∨
      ∃ e, [cA] = [e] ∧ 1400 < effWidth e.width) :=
  ⟨by decide,
    chunkPlanner_group_budget .standard [cA] (Chunk.group [cA]) (by decide) [cA] rfl⟩

/-! ## Claim C2: capture failure policy -/

/-- Claim C2 evidence: a single chunk capture failure yields no document at
all in the current revision (the rejection propagates out of Promise.all
into the top-level catch, which alerts and saves nothing), and the legacy
retry loop turns exhaustion of its three attempts into an error that aborts
the export instead of dropping the chunk. -/
theorem capture_failure_aborts_export :
    downloadPDF .standard [.ok ⟨100, false, false⟩, .error ()] = none ∧
    captureWithRetry (fun _ => false) 0 3 = .error () := ⟨rfl, rfl⟩

/-! ## Claim C5: break-before handling -/

/-- Claim C5 fails as stated: when the total height fits the single-page
threshold the document is a single page and the second chunk, though marked
break-before, is placed below the first on that same page rather than on a
fresh page. -/
theorem breakBefore_single_page_cex :
    totalHeight .standard [⟨100, false, false⟩, ⟨100, false, true⟩] ≤
        singlePageThreshold .standard ∧
    assemble .standard [⟨100, false, false⟩, ⟨100, false, true⟩] =
      [⟨230, [⟨0, ⟨100, false, false⟩, 0⟩, ⟨130, ⟨100, false, true⟩, 1⟩]⟩] := by
  decide

/-! ## Claim C7: the four-card packing scenario -/

/-- Claim C7: four populated cards each measuring 350 layout units under
Standard density plan into exactly two group chunks, the first three cards
in document order and then the fourth. -/
theorem fourCards_two_rows :
    planChunks .standard [cA, cB, cC, cD] =
      [Chunk.group [cA, cB, cC], Chunk.group [cD]] := by decide

/-! ## Claim C4: unpopulated cards never become chunks -/

theorem planCards_append (a b : List Chunk) :
    planCards (a ++ b) = planCards a ++ planCards b := by
  simp [planCards]

theorem planCards_flushRow (row : List El)
    (hrow : ∀ e ∈ row, elIsCard e = true) :
    planCards (flushRow row) = row := by
  unfold flushRow
  split
  · simp_all [planCards]
  · simp only [planCards, List.map_cons, List.map_nil, List.flatten,
      List.append_nil, cardsOfChunk, elsOfChunk]
    exact List.filter_eq_self.2 hrow

theorem planStep_cards (mode : PDFMode) (s : PlanState) (e : El)
    (hrow : ∀ x ∈ s.row, elIsCard x = true ∧ x.populated = true)
    (hch : ∀ c ∈ s.chunks, ∀ x ∈ elsOfChunk c, elIsCard x = true → x.populated = true) :
    (planCards (planStep mode s e).chunks ++ (planStep mode s e).row =
      planCards s.chunks ++ s.row ++ (if elIsCard e && e.populated then [e] else [])) ∧
    (∀ x ∈ (planStep mode s e).row, elIsCard x = true ∧ x.populated = true) ∧
    (∀ c ∈ (planStep mode s e).chunks, ∀ x ∈ elsOfChunk c,
      elIsCard x = true → x.populated = true) := by
  have hflush : planCards (flushRow s.row) = s.row :=
    planCards_flushRow s.row (fun x hx => (hrow x hx).1)
  have hchf : ∀ c ∈ s.chunks ++ flushRow s.row, ∀ x ∈ elsOfChunk c,
      elIsCard x = true → x.populated = true := by
    intro c hc x hx hcx
    rcases List.mem_append.1 hc with hc | hc
    · exact hch c hc x hx hcx
    · unfold flushRow at hc
      split at hc
      · simp at hc
      · rw [List.mem_singleton] at hc
        subst hc
        simp only [elsOfChunk] at hx
        exact (hrow x hx).2
  by_cases hcard : elIsCard e = true
  · by_cases hpop : e.populated = true
    · by_cases hfit : s.rowWidth + effWidth e.width + cardGap mode ≤ 1400
      · have heq : planStep mode s e =
            ⟨s.chunks, s.row ++ [e], s.rowWidth + effWidth e.width + cardGap mode⟩ := by
          simp [planStep, hcard, hpop, hfit]
        rw [heq]
        refine ⟨?_, ?_, hch⟩
        · simp [hcard, hpop]
        · intro x hx
          rcases List.mem_append.1 hx with hx | hx
          · exact hrow x hx
          · rw [List.mem_singleton] at hx
            subst hx
            exact ⟨hcard, hpop⟩
      · have heq : planStep mode s e =
            ⟨s.chunks ++ flushRow s.row, [e], effWidth e.width⟩ := by
          simp [planStep, hcard, hpop, hfit]
        rw [heq]
        refine ⟨?_, ?_, hchf⟩
        · simp [hcard, hpop, planCards_append, hflush]
        · intro x hx
          rw [List.mem_singleton] at hx
          subst hx
          exact ⟨hcard, hpop⟩
    · have heq : planStep mode s e = s := by
        simp [planStep, hcard, Bool.eq_false_iff.2 hpop]
      rw [heq]
      refine ⟨?_, hrow, hch⟩
      simp [hcard, Bool.eq_false_iff.2 hpop]
  · have hcf : elIsCard e = false := Bool.eq_false_iff.2 hcard
    have heq : planStep mode s e =
        ⟨(s.chunks ++ flushRow s.row) ++ [Chunk.single e], [], 0⟩ := by
      simp [planStep, hcf]
    rw [heq]
    refine ⟨?_, by simp, ?_⟩
    · rw [List.append_nil, planCards_append, planCards_append, hflush]
      simp [planCards, cardsOfChunk, elsOfChunk, hcf]
    · intro c hc x hx hcx
      rcases List.mem_append.1 hc with hc | hc
      · exact hchf c hc x hx hcx
      · rw [List.mem_singleton] at hc
        subst hc
        simp only [elsOfChunk, List.mem_singleton] at hx
        subst hx
        exact absurd hcx (by simp [hcf])

theorem planFold_cards (mode : PDFMode) (els : List El) :
    ∀ s : PlanState,
      (∀ x ∈ s.row, elIsCard x = true ∧ x.populated = true) →
      (∀ c ∈ s.chunks, ∀ x ∈ elsOfChunk c, elIsCard x = true → x.populated = true) →
      (planCards (els.foldl (planStep mode) s).chunks ++ (els.foldl (planStep mode) s).row =
        planCards s.chunks ++ s.row ++ els.filter (fun e => elIsCard e && e.populated)) ∧
      (∀ x ∈ (els.foldl (planStep mode) s).row, elIsCard x = true ∧ x.populated = true) ∧
      (∀ c ∈ (els.foldl (planStep mode) s).chunks, ∀ x ∈ elsOfChunk c,
        elIsCard x = true → x.populated = true) := by
  induction els with
  | nil =>
    intro s hr hc
    exact ⟨by simp, hr, hc⟩
  | cons e rest ih =>
    intro s hr hc
    rw [List.foldl_cons]
    obtain ⟨q1, q2, q3⟩ := planStep_cards mode s e hr hc
    obtain ⟨w1, w2, w3⟩ := ih (planStep mode s e) q2 q3
    refine ⟨?_, w2, w3⟩
    rw [w1, q1, List.filter_cons]
    by_cases hk : (elIsCard e && e.populated) = true
    · simp [hk]
    · simp [Bool.eq_false_iff.2 hk]

/-- Claim C4: an unpopulated card never appears in the chunk plan: the card
content of the plan is exactly the populated cards of the input in order,
and every card element inside any chunk is populated. -/
theorem chunkPlanner_filters_unpopulated (mode : PDFMode) (els : List El) :
    planCards (planChunks mode els) =
      els.filter (fun e => elIsCard e && e.populated) ∧
    ∀ c ∈ planChunks mode els, ∀ e ∈ elsOfChunk c,
      elIsCard e = true → e.populated = true := by
  obtain ⟨w1, w2, w3⟩ := planFold_cards mode els ⟨[], [], 0⟩ (by simp) (by simp)
  constructor
  · unfold planChunks
    rw [planCards_append, planCards_flushRow _ (fun x hx => (w2 x hx).1)]
    simpa [planCards] using w1
  · intro c hc e he hcad
    unfold planChunks at hc
    rcases List.mem_append.1 hc with hc | hc
    · exact w3 c hc e he hcad
    · unfold flushRow at hc
      split at hc
      · simp at hc
      · rw [List.mem_singleton] at hc
        subst hc
        simp only [elsOfChunk] at he
        exact (w2 e he).2

theorem chunkPlanner_filters_unpopulated_witness :
    planCards (planChunks .standard [cA, cU, hdr]) =
      List.filter (fun e => elIsCard e && e.populated) [cA, cU, hdr] ∧
    Chunk.group [cA] ∈ planChunks .standard [cA, cU, hdr] ∧
    cA.populated = true :=
  ⟨(chunkPlanner_filters_unpopulated .standard [cA, cU, hdr]).1,
    by decide,
    (chunkPlanner_filters_unpopulated .standard [cA, cU, hdr]).2
      (Chunk.group [cA]) (by decide) cA (by decide) (by decide)⟩

/-! ## Claim C10: the zero-width default -/

theorem flushRow_key (row : List El) :
    (flushRow row).map chunkKey = flushRow (row.map elKey) := by
  unfold flushRow
  rcases eq_or_ne row [] with h | h
  · subst h; simp
  · rw [if_neg h, if_neg (by simpa using h)]
    simp [chunkKey]

theorem planStep_key (mode : PDFMode) (s t : PlanState) (e f : El)
    (hch : s.chunks.map chunkKey = t.chunks.map chunkKey)
    (hrw : s.row.map elKey = t.row.map elKey)
    (hw : s.rowWidth = t.rowWidth)
    (hef : elKey e = elKey f)
    (hwf : effWidth e.width = effWidth f.width) :
    (planStep mode s e).chunks.map chunkKey = (planStep mode t f).chunks.map chunkKey ∧
    (planStep mode s e).row.map elKey = (planStep mode t f).row.map elKey ∧
    (planStep mode s e).rowWidth = (planStep mode t f).rowWidth := by
  have hrole : e.role = f.role := by
    have h := congrArg El.role hef
    exact h
  have hpop : e.populated = f.populated := by
    have h := congrArg El.populated hef
    exact h
  have hcard : elIsCard e = elIsCard f := by unfold elIsCard; rw [hrole]
  have hkey : ∀ (row : List El), (row ++ [e]).map elKey = ((row.map elKey) ++ [elKey e]) := by
    simp
  by_cases hc : elIsCard e = true
  · have hc2 : elIsCard f = true := hcard ▸ hc
    by_cases hp : e.populated = true
    · have hp2 : f.populated = true := hpop ▸ hp
      by_cases hfit : s.rowWidth + effWidth e.width + cardGap mode ≤ 1400
      · have hfit2 : t.rowWidth + effWidth f.width + cardGap mode ≤ 1400 := by
          rw [← hw, ← hwf]; exact hfit
        have he1 : planStep mode s e =
            ⟨s.chunks, s.row ++ [e], s.rowWidth + effWidth e.width + cardGap mode⟩ := by
          simp [planStep, hc, hp, hfit]
        have he2 : planStep mode t f =
            ⟨t.chunks, t.row ++ [f], t.rowWidth + effWidth f.width + cardGap mode⟩ := by
          simp [planStep, hc2, hp2, hfit2]
        rw [he1, he2]
        refine ⟨hch, ?_, ?_⟩
        · simp only [List.map_append, List.map_cons, List.map_nil]
          rw [hrw, hef]
        · dsimp only
          rw [hw, hwf]
      · have hfit2 : ¬(t.rowWidth + effWidth f.width + cardGap mode ≤ 1400) := by
          rw [← hw, ← hwf]; exact hfit
        have he1 : planStep mode s e =
            ⟨s.chunks ++ flushRow s.row, [e], effWidth e.width⟩ := by
          simp [planStep, hc, hp, hfit]
        have he2 : planStep mode t f =
            ⟨t.chunks ++ flushRow t.row, [f], effWidth f.width⟩ := by
          simp [planStep, hc2, hp2, hfit2]
        rw [he1, he2]
        refine ⟨?_, ?_, hwf⟩
        · simp only [List.map_append]
          rw [hch, flushRow_key, flushRow_key, hrw]
        · simp only [List.map_cons, List.map_nil]
          rw [hef]
    · have hp2 : ¬(f.populated = true) := fun hx => hp (hpop ▸ hx)
      have he1 : planStep mode s e = s := by
        simp [planStep, hc, Bool.eq_false_iff.2 hp]
      have he2 : planStep mode t f = t := by
        simp [planStep, hc2, Bool.eq_false_iff.2 hp2]
      rw [he1, he2]
      exact ⟨hch, hrw, hw⟩
  · have hc2 : ¬(elIsCard f = true) := fun hx => hc (hcard ▸ hx)
    have he1 : planStep mode s e =
        ⟨(s.chunks ++ flushRow s.row) ++ [Chunk.single e], [], 0⟩ := by
      simp [planStep, Bool.eq_false_iff.2 hc]
    have he2 : planStep mode t f =
        ⟨(t.chunks ++ flushRow t.row) ++ [Chunk.single f], [], 0⟩ := by
      simp [planStep, Bool.eq_false_iff.2 hc2]
    rw [he1, he2]
    refine ⟨?_, by simp, by simp⟩
    simp only [List.map_append, List.map_cons, List.map_nil]
    rw [hch, flushRow_key, flushRow_key, hrw]
    simp [chunkKey, hef]

theorem planFold_key (mode : PDFMode) :
    ∀ (els1 els2 : List El) (s t : PlanState),
      els1.map elKey = els2.map elKey →
      els1.map (fun e => effWidth e.width) = els2.map (fun e => effWidth e.width) →
      s.chunks.map chunkKey = t.chunks.map chunkKey →
      s.row.map elKey = t.row.map elKey →
      s.rowWidth = t.rowWidth →
      ((els1.foldl (planStep mode) s).chunks.map chunkKey =
        (els2.foldl (planStep mode) t).chunks.map chunkKey) ∧
      ((els1.foldl (planStep mode) s).row.map elKey =
        (els2.foldl (planStep mode) t).row.map elKey) ∧
      (els1.foldl (planStep mode) s).rowWidth =
        (els2.foldl (planStep mode) t).rowWidth := by
  intro els1
  induction els1 with
  | nil =>
    intro els2 s t h1 h2 h3 h4 h5
    have hnil : els2 = [] := by
      have := h1.symm
      simpa using this
    subst hnil
    exact ⟨h3, h4, h5⟩
  | cons e rest ih =>
    intro els2 s t h1 h2 h3 h4 h5
    cases els2 with
    | nil => simp at h1
    | cons f rest2 =>
      simp only [List.map_cons, List.cons.injEq] at h1 h2
      rw [List.foldl_cons, List.foldl_cons]
      obtain ⟨q1, q2, q3⟩ := planStep_key mode s t e f h3 h4 h5 h1.1 h2.1
      exact ih rest2 (planStep mode s e) (planStep mode t f) h1.2 h2.2 q1 q2 q3

/-- Claim C10: a card element measured at width zero is packed exactly as a
350-wide card would be (the chunk plans agree element-for-element once the
stored widths are projected away), the substituted width is 350, and no
packed width is ever zero. -/
theorem chunkPlanner_zero_width_default (mode : PDFMode) (l1 l2 : List El)
    (e : El) (w : ℤ) (he : e.width = 0) :
    (planChunks mode (l1 ++ e :: l2)).map chunkKey =
      (planChunks mode (l1 ++ { e with width := 350 } :: l2)).map chunkKey ∧
    effWidth e.width = 350 ∧ effWidth w ≠ 0 := by
  refine ⟨?_, by rw [he]; decide, ?_⟩
  · have hef : elKey e = elKey { e with width := 350 } := rfl
    have hwf : effWidth e.width = effWidth ({ e with width := 350 } : El).width := by
      rw [he]
      show effWidth (0:ℤ) = effWidth (350:ℤ)
      decide
    obtain ⟨q1, q2, q3⟩ := planFold_key mode (l1 ++ e :: l2)
      (l1 ++ { e with width := 350 } :: l2) ⟨[], [], 0⟩ ⟨[], [], 0⟩
      (by simp only [List.map_append, List.map_cons]; rw [hef])
      (by simp only [List.map_append, List.map_cons]; rw [hwf])
      rfl rfl rfl
    unfold planChunks
    simp only [List.map_append]
    rw [q1, flushRow_key, flushRow_key, q2]
  · unfold effWidth
    split
    · decide
    · assumption

theorem chunkPlanner_zero_width_default_witness :
    cZ.width = 0 ∧
    ((planChunks .standard ([cA] ++ cZ :: [])).map chunkKey =
      (planChunks .standard ([cA] ++ { cZ with width := 350 } :: [])).map chunkKey ∧
    effWidth cZ.width = 350 ∧ effWidth (5:ℤ) ≠ 0) :=
  ⟨by decide, chunkPlanner_zero_width_default .standard [cA] [] cZ 5 (by decide)⟩

/-! ## Page assembly: the single-page branch -/

theorem assembleAux_single (mode : PDFMode) :
    ∀ (rs : List RasterItem) (done : List Page) (cur : Page) (y : ℤ) (prev : Bool) (i : Nat),
      assembleAux mode true done cur y prev i rs =
        done ++ [⟨cur.height, cur.placements ++ placeRun mode y prev i rs⟩] := by
  intro rs
  induction rs with
  | nil =>
    intro done cur y prev i
    simp [assembleAux, placeRun]
  | cons r rest ih =>
    intro done cur y prev i
    simp only [assembleAux, if_pos rfl, placeRun]
    rw [ih]
    simp

theorem placeRun_items (mode : PDFMode) :
    ∀ (rs : List RasterItem) (y : ℤ) (prev : Bool) (i : Nat),
      (placeRun mode y prev i rs).map Placement.item = rs := by
  intro rs
  induction rs with
  | nil => intro y prev i; simp [placeRun]
  | cons r rest ih =>
    intro y prev i
    simp only [placeRun, List.map_cons]
    rw [ih]

theorem placeRun_accum (mode : PDFMode) :
    ∀ (rs : List RasterItem) (p : Placement) (y : ℤ) (prev : Bool) (i : Nat),
      y = p.y + p.item.height → prev = p.item.isCard →
      accumFromB mode p (placeRun mode y prev i rs) = true := by
  intro rs
  induction rs with
  | nil => intro p y prev i hy hprev; simp [placeRun, accumFromB]
  | cons r rest ih =>
    intro p y prev i hy hprev
    subst hy
    subst hprev
    simp only [placeRun, accumFromB, Bool.and_eq_true, decide_eq_true_eq]
    exact ⟨trivial,
      ih ⟨p.y + p.item.height + effGap mode p.item.isCard r.isCard, r, i⟩ _ _ _ rfl rfl⟩

/-- Claim C3: when the total computed height is at most the single-page
threshold (inclusive boundary) the Page Assembler emits exactly one page
whose height is exactly that total, carrying every chunk in order at
accumulating vertical offsets. -/
theorem single_page_assembly (mode : PDFMode) (rs : List RasterItem)
    (h1 : rs ≠ []) (h2 : totalHeight mode rs ≤ singlePageThreshold mode) :
    ∃ pg : Page, assemble mode rs = [pg] ∧
      pg.height = totalHeight mode rs ∧
      pg.placements.map Placement.item = rs ∧
      accumB mode pg.placements = true := by
  cases rs with
  | nil => exact absurd rfl h1
  | cons r rest =>
    have hd : decide (totalHeight mode (r :: rest) ≤ singlePageThreshold mode) = true :=
      decide_eq_true h2
    refine ⟨⟨totalHeight mode (r :: rest),
      ⟨0, r, 0⟩ :: placeRun mode r.height r.isCard 1 rest⟩, ?_, rfl, ?_, ?_⟩
    · have hform : assemble mode (r :: rest) =
          assembleAux mode true []
            ⟨totalHeight mode (r :: rest), [⟨0, r, 0⟩]⟩ r.height r.isCard 1 rest := by
        simp only [assemble]
        rw [hd]
        simp
      rw [hform, assembleAux_single]
      simp
    · simp [placeRun_items]
    · have hacc := placeRun_accum mode rest ⟨0, r, 0⟩ r.height r.isCard 1 (by simp) rfl
      simp [accumB, hacc]

theorem single_page_assembly_witness :
    ([⟨1985, false, false⟩, ⟨1985, false, false⟩] : List RasterItem) ≠ [] ∧
    totalHeight .standard [⟨1985, false, false⟩, ⟨1985, false, false⟩] =
      singlePageThreshold .standard ∧
    ∃ pg : Page, assemble .standard [⟨1985, false, false⟩, ⟨1985, false, false⟩] = [pg] ∧
      pg.height = totalHeight .standard [⟨1985, false, false⟩, ⟨1985, false, false⟩] ∧
      pg.placements.map Placement.item = [⟨1985, false, false⟩, ⟨1985, false, false⟩] ∧
      accumB .standard pg.placements = true :=
  ⟨by decide, by decide,
    single_page_assembly .standard [⟨1985, false, false⟩, ⟨1985, false, false⟩]
      (by decide) (by decide)⟩

/-! ## Page assembly: the paginated branch -/

theorem tail_append_singleton {α : Type} (l : List α) (p : α) (h : l ≠ []) :
    (l ++ [p]).tail = l.tail ++ [p] := by
  cases l with
  | nil => exact absurd rfl h
  | cons a as => simp

theorem head?_append_singleton {α : Type} (l : List α) (p : α) (h : l ≠ []) :
    (l ++ [p]).head? = l.head? := by
  cases l with
  | nil => exact absurd rfl h
  | cons a as => simp

theorem assembleAux_multi (mode : PDFMode) :
    ∀ (rs : List RasterItem) (done : List Page) (cur : Page) (y : ℤ) (prev : Bool) (i : Nat),
      (∀ pg ∈ done, pg.placements ≠ [] ∧
        (∀ p ∈ pg.placements, p.y + p.item.height ≤ pg.height) ∧
        (∀ p ∈ pg.placements.tail, p.item.breakBefore = false) ∧
        (∀ p, pg.placements.head? = some p → p.y = 0)) →
      cur.placements ≠ [] →
      (∀ p ∈ cur.placements, p.y + p.item.height ≤ cur.height) →
      (∀ p ∈ cur.placements.tail, p.item.breakBefore = false) →
      (∀ p, cur.placements.head? = some p → p.y = 0) →
      y ≤ cur.height →
      ∀ pg ∈ assembleAux mode false done cur y prev i rs,
        pg.placements ≠ [] ∧
        (∀ p ∈ pg.placements, p.y + p.item.height ≤ pg.height) ∧
        (∀ p ∈ pg.placements.tail, p.item.breakBefore = false) ∧
        (∀ p, pg.placements.head? = some p → p.y = 0) := by
  intro rs
  induction rs with
  | nil =>
    intro done cur y prev i hdone hne hall htail hhead hy pg hpg
    simp only [assembleAux] at hpg
    rcases List.mem_append.1 hpg with h | h
    · exact hdone pg h
    · rw [List.mem_singleton] at h
      subst h
      exact ⟨hne, hall, htail, hhead⟩
  | cons r rest ih =>
    intro done cur y prev i hdone hne hall htail hhead hy pg hpg
    simp only [assembleAux, Bool.false_eq_true, if_false] at hpg
    by_cases hnp :
        (r.breakBefore || decide (y + r.height + effGap mode prev r.isCard > cur.height)) = true
    · rw [if_pos hnp] at hpg
      refine ih (done ++ [cur]) ⟨max STANDARD_A4_HEIGHT r.height, [⟨0, r, i⟩]⟩
        r.height r.isCard (i + 1) ?_ (by simp) ?_ (by simp) ?_ (le_max_right _ _) pg hpg
      · intro q hq
        rcases List.mem_append.1 hq with h | h
        · exact hdone q h
        · rw [List.mem_singleton] at h
          subst h
          exact ⟨hne, hall, htail, hhead⟩
      · intro p hp
        rw [List.mem_singleton] at hp
        subst hp
        simp
      · intro p hp
        simp only [List.head?_cons, Option.some.injEq] at hp
        subst hp
        rfl
    · rw [if_neg hnp] at hpg
      simp only [Bool.or_eq_true, decide_eq_true_eq, not_or, Bool.not_eq_true] at hnp
      obtain ⟨hbb, hlt⟩ := hnp
      have hfits : y + r.height + effGap mode prev r.isCard ≤ cur.height := not_lt.1 hlt
      refine ih done
        ⟨cur.height, cur.placements ++ [⟨y + effGap mode prev r.isCard, r, i⟩]⟩
        (y + effGap mode prev r.isCard + r.height) r.isCard (i + 1) hdone
        (by simp) ?_ ?_ ?_ (by dsimp only; linarith) pg ?_
      · intro p hp
        rcases List.mem_append.1 hp with h | h
        · exact hall p h
        · rw [List.mem_singleton] at h
          subst h
          dsimp only
          linarith
      · show ∀ p ∈ (cur.placements ++ [(⟨y + effGap mode prev r.isCard, r, i⟩ : Placement)]).tail,
          p.item.breakBefore = false
        rw [tail_append_singleton _ _ hne]
        intro p hp
        rcases List.mem_append.1 hp with h | h
        · exact htail p h
        · rw [List.mem_singleton] at h
          subst h
          exact hbb
      · show ∀ p, (cur.placements ++ [(⟨y + effGap mode prev r.isCard, r, i⟩ : Placement)]).head? =
            some p → p.y = 0
        rw [head?_append_singleton _ _ hne]
        exact hhead
      · exact hpg

/-! ## Claim C6: occupied height never exceeds the page height -/

theorem totalHeightFrom_nonneg (mode : PDFMode) :
    ∀ (rs : List RasterItem) (prev : Bool),
      (∀ r ∈ rs, 0 ≤ r.height) → 0 ≤ totalHeightFrom mode prev rs := by
  intro rs
  induction rs with
  | nil => intro prev _; simp [totalHeightFrom]
  | cons r rest ih =>
    intro prev hh
    simp only [totalHeightFrom]
    have h1 := effGap_nonneg mode prev r.isCard
    have h2 := hh r (List.mem_cons_self r rest)
    have h3 := ih r.isCard (fun x hx => hh x (List.mem_cons_of_mem r hx))
    linarith

theorem placeRun_bound (mode : PDFMode) :
    ∀ (rs : List RasterItem) (y : ℤ) (prev : Bool) (i : Nat) (H : ℤ),
      (∀ r ∈ rs, 0 ≤ r.height) →
      y + totalHeightFrom mode prev rs ≤ H →
      ∀ p ∈ placeRun mode y prev i rs, p.y + p.item.height ≤ H := by
  intro rs
  induction rs with
  | nil => intro y prev i H _ _ p hp; simp [placeRun] at hp
  | cons r rest ih =>
    intro y prev i H hh hbound p hp
    simp only [totalHeightFrom] at hbound
    have h0 := totalHeightFrom_nonneg mode rest r.isCard
      (fun x hx => hh x (List.mem_cons_of_mem r hx))
    simp only [placeRun, List.mem_cons] at hp
    rcases hp with hp | hp
    · subst hp
      dsimp only
      linarith
    · exact ih (y + effGap mode prev r.isCard + r.height) r.isCard (i + 1) H
        (fun x hx => hh x (List.mem_cons_of_mem r hx)) (by linarith) p hp

theorem pageOccupied_le (pg : Page) (hne : pg.placements ≠ [])
    (hall : ∀ p ∈ pg.placements, p.y + p.item.height ≤ pg.height) :
    pageOccupied pg ≤ pg.height := by
  unfold pageOccupied
  cases h : pg.placements.getLast? with
  | none => exact absurd (List.getLast?_eq_none_iff.mp h) hne
  | some p => exact hall p (List.mem_of_mem_getLast? h)

/-- Claim C6: on every page of the emitted document the occupied vertical
extent (placed chunk heights plus the gaps advanced between them, measured
by the end of the last placement) never exceeds the declared page height,
and no single placement extends past the page height. -/
theorem page_occupancy_bound (mode : PDFMode) (rs : List RasterItem)
    (hh : ∀ r ∈ rs, 0 ≤ r.height) :
    ∀ pg ∈ assemble mode rs, pageOccupied pg ≤ pg.height ∧
      ∀ p ∈ pg.placements, p.y + p.item.height ≤ pg.height := by
  cases rs with
  | nil => intro pg hpg; simp [assemble] at hpg
  | cons r rest =>
    have hhrest : ∀ x ∈ rest, (0:ℤ) ≤ x.height :=
      fun x hx => hh x (List.mem_cons_of_mem r hx)
    have hr0 : (0:ℤ) ≤ r.height := hh r (List.mem_cons_self r rest)
    by_cases hs : totalHeight mode (r :: rest) ≤ singlePageThreshold mode
    · have hd : decide (totalHeight mode (r :: rest) ≤ singlePageThreshold mode) = true :=
        decide_eq_true hs
      have hform : assemble mode (r :: rest) =
          assembleAux mode true []
            ⟨totalHeight mode (r :: rest), [⟨0, r, 0⟩]⟩ r.height r.isCard 1 rest := by
        simp only [assemble]
        rw [hd]
        simp
      intro pg hpg
      rw [hform, assembleAux_single] at hpg
      simp only [List.nil_append, List.mem_singleton] at hpg
      subst hpg
      have hfromnn := totalHeightFrom_nonneg mode rest r.isCard hhrest
      have hbnd : ∀ p ∈ placeRun mode r.height r.isCard 1 rest,
          p.y + p.item.height ≤ totalHeight mode (r :: rest) := by
        refine placeRun_bound mode rest r.height r.isCard 1 _ hhrest ?_
        simp [totalHeight]
      have hall2 : ∀ p ∈ (⟨0, r, 0⟩ : Placement) :: placeRun mode r.height r.isCard 1 rest,
          p.y + p.item.height ≤ totalHeight mode (r :: rest) := by
        intro p hp
        rcases List.mem_cons.1 hp with hp | hp
        · subst hp
          dsimp only
          simp only [totalHeight]
          linarith
        · exact hbnd p hp
      constructor
      · exact pageOccupied_le _ (by simp) (by simpa using hall2)
      · simpa using hall2
    · have hd : decide (totalHeight mode (r :: rest) ≤ singlePageThreshold mode) = false :=
        decide_eq_false hs
      have hform : assemble mode (r :: rest) =
          assembleAux mode false []
            ⟨max STANDARD_A4_HEIGHT r.height, [⟨0, r, 0⟩]⟩ r.height r.isCard 1 rest := by
        simp only [assemble]
        rw [hd]
        simp
      intro pg hpg
      rw [hform] at hpg
      have hm := assembleAux_multi mode rest []
        ⟨max STANDARD_A4_HEIGHT r.height, [⟨0, r, 0⟩]⟩ r.height r.isCard 1
        (by simp) (by simp)
        (by intro p hp
            rw [List.mem_singleton] at hp
            subst hp
            simp)
        (by simp)
        (by intro p hp
            simp only [List.head?_cons, Option.some.injEq] at hp
            subst hp
            rfl)
        (le_max_right _ _) pg hpg
      exact ⟨pageOccupied_le pg hm.1 hm.2.1, hm.2.1⟩

theorem page_occupancy_bound_witness :
    (∀ r ∈ ([⟨100, false, false⟩, ⟨5000, false, false⟩] : List RasterItem), 0 ≤ r.height) ∧
    (⟨1980, [⟨0, ⟨100, false, false⟩, 0⟩]⟩ : Page) ∈
      assemble .standard [⟨100, false, false⟩, ⟨5000, false, false⟩] ∧
    pageOccupied ⟨1980, [⟨0, ⟨100, false, false⟩, 0⟩]⟩ ≤
      (⟨1980, [⟨0, ⟨100, false, false⟩, 0⟩]⟩ : Page).height :=
  ⟨by decide, by decide,
    (page_occupancy_bound .standard [⟨100, false, false⟩, ⟨5000, false, false⟩]
      (by decide) ⟨1980, [⟨0, ⟨100, false, false⟩, 0⟩]⟩ (by decide)).1⟩

/-! ## Claim C5 (amended): break-before in the paginated branch -/

/-- Claim C5 (amended): once the document is paginated (total height above
the threshold), every chunk placed below another on the same page carries no
break-before flag and fits the page, and every break-before chunk is the
first placement of its page, at offset zero; in single-page mode the flag is
ignored (see the counterexample). -/
theorem breakBefore_paginated (mode : PDFMode) (rs : List RasterItem)
    (h : singlePageThreshold mode < totalHeight mode rs) :
    ∀ pg ∈ assemble mode rs,
      (∀ p ∈ pg.placements.tail,
        p.item.breakBefore = false ∧ p.y + p.item.height ≤ pg.height) ∧
      (∀ p ∈ pg.placements, p.item.breakBefore = true →
        pg.placements.head? = some p ∧ p.y = 0) := by
  cases rs with
  | nil => intro pg hpg; simp [assemble] at hpg
  | cons r rest =>
    have hd : decide (totalHeight mode (r :: rest) ≤ singlePageThreshold mode) = false :=
      decide_eq_false (not_le.2 h)
    have hform : assemble mode (r :: rest) =
        assembleAux mode false []
          ⟨max STANDARD_A4_HEIGHT r.height, [⟨0, r, 0⟩]⟩ r.height r.isCard 1 rest := by
      simp only [assemble]
      rw [hd]
      simp
    intro pg hpg
    rw [hform] at hpg
    have hm := assembleAux_multi mode rest []
      ⟨max STANDARD_A4_HEIGHT r.height, [⟨0, r, 0⟩]⟩ r.height r.isCard 1
      (by simp) (by simp)
      (by intro p hp
          rw [List.mem_singleton] at hp
          subst hp
          simp)
      (by simp)
      (by intro p hp
          simp only [List.head?_cons, Option.some.injEq] at hp
          subst hp
          rfl)
      (le_max_right _ _) pg hpg
    refine ⟨?_, ?_⟩
    · intro p hp
      exact ⟨hm.2.2.1 p hp, hm.2.1 p (List.mem_of_mem_tail hp)⟩
    · intro p hp hbb
      cases hplc : pg.placements with
      | nil =>
        rw [hplc] at hp
        simp at hp
      | cons q qs =>
        rw [hplc] at hp
        rcases List.mem_cons.1 hp with hp1 | hp2
        · subst hp1
          refine ⟨rfl, ?_⟩
          exact hm.2.2.2 p (by rw [hplc]; rfl)
        · have hfalse : p.item.breakBefore = false := by
            have := hm.2.2.1 p
            rw [hplc] at this
            exact this hp2
          rw [hbb] at hfalse
          exact absurd hfalse (by simp)

theorem breakBefore_paginated_witness :
    singlePageThreshold .standard <
      totalHeight .standard [⟨3000, false, false⟩, ⟨3000, false, true⟩] ∧
    (⟨3000, [⟨0, ⟨3000, false, true⟩, 1⟩]⟩ : Page) ∈
      assemble .standard [⟨3000, false, false⟩, ⟨3000, false, true⟩] ∧
    (⟨3000, [⟨0, ⟨3000, false, true⟩, 1⟩]⟩ : Page).placements.head? =
      some ⟨0, ⟨3000, false, true⟩, 1⟩ ∧
    (⟨0, ⟨3000, false, true⟩, 1⟩ : Placement).y = 0 :=
  ⟨by decide, by decide,
    (breakBefore_paginated .standard [⟨3000, false, false⟩, ⟨3000, false, true⟩]
        (by decide) ⟨3000, [⟨0, ⟨3000, false, true⟩, 1⟩]⟩ (by decide)).2
      ⟨0, ⟨3000, false, true⟩, 1⟩ (by decide) (by decide)⟩

/-! ## Claim C9: order preservation across parallel rasterization -/

theorem docIdx_append (a b : List Page) : docIdx (a ++ b) = docIdx a ++ docIdx b := by
  simp [docIdx]

theorem assembleAux_docIdx (mode : PDFMode) (useSingle : Bool) :
    ∀ (rs : List RasterItem) (done : List Page) (cur : Page) (y : ℤ) (prev : Bool) (i : Nat),
      docIdx (assembleAux mode useSingle done cur y prev i rs) =
        docIdx done ++ cur.placements.map Placement.idx ++ List.range' i rs.length := by
  intro rs
  induction rs with
  | nil =>
    intro done cur y prev i
    simp [assembleAux, docIdx_append, docIdx]
  | cons r rest ih =>
    intro done cur y prev i
    simp only [assembleAux]
    by_cases hu : useSingle = true
    · rw [if_pos hu, ih]
      simp [List.append_assoc, List.range']
    · rw [if_neg hu]
      by_cases hb :
          (r.breakBefore || decide (y + r.height + effGap mode prev r.isCard > cur.height)) = true
      · rw [if_pos hb, ih, docIdx_append]
        simp [docIdx, List.append_assoc, List.range']
      · rw [if_neg hb, ih]
        simp [List.append_assoc, List.range']

theorem assemble_docIdx (mode : PDFMode) (rs : List RasterItem) :
    docIdx (assemble mode rs) = List.range rs.length := by
  cases rs with
  | nil => simp [assemble, docIdx]
  | cons r rest =>
    simp only [assemble]
    rw [assembleAux_docIdx]
    simp [docIdx, List.range_eq_range', List.range']

theorem settle_getElem (tasks : List RasterItem) :
    ∀ (order : List Nat) (acc : List (Option RasterItem)) (j : Nat),
      (order.foldl (fun a k => a.set k tasks[k]?) acc)[j]? =
        if j ∈ order ∧ j < acc.length then some tasks[j]? else acc[j]? := by
  intro order
  induction order with
  | nil =>
    intro acc j
    simp
  | cons k ord ih =>
    intro acc j
    rw [List.foldl_cons, ih, List.length_set]
    by_cases h1 : j ∈ ord ∧ j < acc.length
    · rw [if_pos h1, if_pos ⟨List.mem_cons_of_mem k h1.1, h1.2⟩]
    · rw [if_neg h1]
      by_cases h2 : j = k
      · subst h2
        by_cases h3 : j < acc.length
        · rw [List.getElem?_set_self h3, if_pos ⟨List.mem_cons_self j ord, h3⟩]
        · rw [List.set_eq_of_length_le (not_lt.1 h3), if_neg (fun hc => h3 hc.2)]
      · rw [List.getElem?_set_ne (Ne.symm h2)]
        have hno : ¬(j ∈ k :: ord ∧ j < acc.length) := by
          intro hc
          rcases List.mem_cons.1 hc.1 with h | h
          · exact h2 h
          · exact h1 ⟨h, hc.2⟩
        rw [if_neg hno]

theorem settleAll_complete (tasks : List RasterItem) (order : List Nat)
    (h : ∀ j, j < tasks.length → j ∈ order) :
    settleAll tasks order = tasks.map some := by
  apply List.ext_getElem?_iff.mpr
  intro j
  unfold settleAll
  rw [settle_getElem, List.length_replicate]
  by_cases hj : j < tasks.length
  · rw [if_pos ⟨h j hj, hj⟩, List.getElem?_map, List.getElem?_eq_getElem hj]
    rfl
  · rw [if_neg (fun hc => hj hc.2)]
    have h1 : (List.replicate tasks.length (none : Option RasterItem))[j]? = none := by
      apply List.getElem?_eq_none_iff.mpr
      simpa using not_lt.1 hj
    have h2 : (tasks.map some)[j]? = none := by
      apply List.getElem?_eq_none_iff.mpr
      simpa using not_lt.1 hj
    rw [h1, h2]

theorem sequenceOpt_map_some : ∀ (l : List RasterItem), sequenceOpt (l.map some) = some l := by
  intro l
  induction l with
  | nil => rfl
  | cons a rest ih => simp [sequenceOpt, ih]

/-- Claim C9: for every completion order that settles all rasterization
tasks, Promise.all hands the Page Assembler the results in chunk-plan order
(never completion order), and the emitted document places the chunk images
in exactly the original order: the plan indices read off the document page
by page are 0, 1, ..., n-1. -/
theorem raster_order_preserved (mode : PDFMode) (chunks : List Chunk)
    (capture : Chunk → ℤ) (order : List Nat)
    (h : ∀ j, j < chunks.length → j ∈ order) :
    rasterizeAll chunks capture order = some (chunks.map (toItem capture)) ∧
    docIdx (assemble mode (chunks.map (toItem capture))) =
      List.range chunks.length := by
  constructor
  · unfold rasterizeAll
    rw [settleAll_complete _ order (by simpa using h), sequenceOpt_map_some]
  · rw [assemble_docIdx]
    simp

theorem raster_order_preserved_witness :
    (∀ j, j < ([Chunk.single hdr, Chunk.group [cA]] : List Chunk).length → j ∈ [1, 0]) ∧
    (rasterizeAll [Chunk.single hdr, Chunk.group [cA]] (fun _ => 100) [1, 0] =
      some (([Chunk.single hdr, Chunk.group [cA]] : List Chunk).map (toItem (fun _ => 100))) ∧
    docIdx (assemble .standard
        (([Chunk.single hdr, Chunk.group [cA]] : List Chunk).map (toItem (fun _ => 100)))) =
      List.range ([Chunk.single hdr, Chunk.group [cA]] : List Chunk).length) :=
  ⟨by decide,
    raster_order_preserved .standard [Chunk.single hdr, Chunk.group [cA]]
      (fun _ => 100) [1, 0] (by decide)⟩

/-! ## Claim C8: the Color Normalizer is the identity without unsupported colors -/

theorem isPrefixOf_containsSub (pat : List Char) :
    ∀ (s : List Char), pat.isPrefixOf s = true → containsSub pat s = true := by
  intro s
  cases s with
  | nil =>
    intro h
    cases pat with
    | nil => rfl
    | cons a l => simp [List.isPrefixOf] at h
  | cons c rest =>
    intro h
    simp [containsSub, h]

theorem containsSub_tail (pat : List Char) (c : Char) (rest : List Char)
    (h : containsSub pat (c :: rest) = false) :
    pat.isPrefixOf (c :: rest) = false ∧ containsSub pat rest = false := by
  simp only [containsSub, Bool.or_eq_false_iff] at h
  exact h

theorem dropLit_none (s : List Char)
    (h1 : litOklch.isPrefixOf s = false)
    (h2 : litOklab.isPrefixOf s = false)
    (h3 : litColorMix.isPrefixOf s = false) :
    dropLit s = none := by
  simp [dropLit, h1, h2, h3]

theorem matchColorFn_none (s : List Char)
    (h1 : litOklch.isPrefixOf s = false)
    (h2 : litOklab.isPrefixOf s = false)
    (h3 : litColorMix.isPrefixOf s = false) :
    matchColorFn s = none := by
  simp [matchColorFn, dropLit_none s h1 h2 h3]

theorem replaceScanF_clean (conv : List Char → List Char) :
    ∀ (fuel : Nat) (s : List Char),
      containsSub litOklch s = false →
      containsSub litOklab s = false →
      containsSub litColorMix s = false →
      replaceScanF conv fuel s = s := by
  intro fuel
  induction fuel with
  | zero => intro s _ _ _; rfl
  | succ n ih =>
    intro s h1 h2 h3
    cases s with
    | nil => rfl
    | cons c rest =>
      obtain ⟨p1, q1⟩ := containsSub_tail _ _ _ h1
      obtain ⟨p2, q2⟩ := containsSub_tail _ _ _ h2
      obtain ⟨p3, q3⟩ := containsSub_tail _ _ _ h3
      have hm := matchColorFn_none (c :: rest) p1 p2 p3
      simp only [replaceScanF, hm]
      rw [ih rest q1 q2 q3]

/-- Claim C8: on a style string containing none of the three unsupported
color function names the Color Normalizer is the identity, character for
character, for every color resolver conv: both the guarded entry point and
the raw regex replacement scan return the string unchanged. -/
theorem color_normalizer_identity (conv : List Char → List Char) (s : List Char)
    (h1 : containsSub litOklch s = false)
    (h2 : containsSub litOklab s = false)
    (h3 : containsSub litColorMix s = false) :
    normalizeStyle conv s = s ∧ replaceScan conv s = s := by
  have hrep : replaceScan conv s = s := replaceScanF_clean conv s.length s h1 h2 h3
  refine ⟨?_, hrep⟩
  unfold normalizeStyle
  rw [h1, h2, h3]
  simp [hrep]

theorem color_normalizer_identity_witness :
    containsSub litOklch "color: rgb(10, 20, 30); background: #fff".toList = false ∧
    containsSub litOklab "color: rgb(10, 20, 30); background: #fff".toList = false ∧
    containsSub litColorMix "color: rgb(10, 20, 30); background: #fff".toList = false ∧
    (normalizeStyle (fun _ => "#888888".toList)
        "color: rgb(10, 20, 30); background: #fff".toList =
        "color: rgb(10, 20, 30); background: #fff".toList ∧
      replaceScan (fun _ => "#888888".toList)
        "color: rgb(10, 20, 30); background: #fff".toList =
        "color: rgb(10, 20, 30); background: #fff".toList) :=
  ⟨by decide, by decide, by decide,
    color_normalizer_identity (fun _ => "#888888".toList)
      "color: rgb(10, 20, 30); background: #fff".toList (by decide) (by decide) (by decide)⟩

end FinSurf
